import Mathlib

/-!
Verification of the bkmr core (src/bkmr/src/main.rs, src/bkmr/src/process.rs):
a shallow embedding of the ordinal selection-and-dispatch pipeline, the
interactive tokenizer, the open/delete/edit/print actions, and the result-list
sorting, together with theorems settling the specification claims.

Strings are modelled as lists of Unicode scalar values (`List Char`); the
character-level primitives (`trim`, `replace`, `to_lowercase`, `split`)
are modelled on that representation, faithfully for the ASCII range the
claims exercise.
-/

namespace Bkmr

/-- A Rust `String`, modelled as its list of characters. -/
abbrev Str := List Char

/-- The `Bookmark` record (fields as used by `process.rs` / `main.rs`):
`id`, `URL`, `metadata` (the title), `tags`, `desc`, `flags`,
`last_update_ts` (timestamp, modelled as an integer). -/
structure Bookmark where
  id : Int
  URL : Str
  metadata : Str
  tags : Str
  desc : Str
  flags : Int
  last_update_ts : Int
deriving DecidableEq, Repr

/-! ## Character-level string primitives -/

/-- Fuel-indexed worker for Rust `str::replace`: replaces every
non-overlapping occurrence of `pat` (left to right) by `rep`.
The fuel only serves to make the recursion structural; it is always
called with fuel ≥ length of the string, in which case it never runs out. -/
def replaceAllFuel (pat rep : Str) : Nat → Str → Str
  | 0, s => s
  | _ + 1, [] => []
  | fuel + 1, c :: rest =>
    if pat ≠ [] ∧ pat.isPrefixOf (c :: rest) then
      rep ++ replaceAllFuel pat rep fuel ((c :: rest).drop pat.length)
    else
      c :: replaceAllFuel pat rep fuel rest

/-- Rust `str::replace(pat, rep)`: every non-overlapping occurrence of `pat`
is replaced by `rep`, scanning left to right. -/
def replaceAll (pat rep s : Str) : Str := replaceAllFuel pat rep s.length s

/-- Rust `str::trim`: drop whitespace from both ends. -/
def rustTrim (s : Str) : Str :=
  ((s.dropWhile Char.isWhitespace).reverse.dropWhile Char.isWhitespace).reverse

/-- Rust `str::split` with a single-character separator: splits at every
occurrence of `sep`, keeping empty fragments (like Rust's `split(" ")`). -/
def splitCh (sep : Char) : Str → List Str
  | [] => [[]]
  | c :: rest =>
    if c = sep then [] :: splitCh sep rest
    else
      match splitCh sep rest with
      | [] => [[c]]
      | t :: ts => (c :: t) :: ts

/-- Rust `starts_with` on strings. -/
def strStartsWith (s pre : Str) : Bool := pre.isPrefixOf s

/-- `Vec<String>::join(" ")`. -/
def joinSpace : List Str → Str
  | [] => []
  | [x] => x
  | x :: y :: rest => x ++ ' ' :: joinSpace (y :: rest)

/-! ## The interactive tokenizer (`parse`, process.rs:60) -/

/-- `parse` (process.rs:60–69): `input.trim().replace(",", "").to_lowercase()`
then split on `" "` and drop empty tokens. Lowercasing is Rust
`to_lowercase`, modelled by `Char.toLower` (faithful on ASCII). -/
def parse (input : Str) : List Str :=
  let binding := (replaceAll [','] [] (rustTrim input)).map Char.toLower
  (splitCh ' ' binding).filter (fun s => s ≠ [])

example : parse ("  P 1, 2  ".data) = ["p".data, "1".data, "2".data] := by decide
example : parse ("a,b c".data) = ["ab".data, "c".data] := by decide

/-! ## Batch dispatch (`do_sth_with_bms`, process.rs:223–250) -/

/-- Outcome of a batch dispatch: `ok` (the Rust function returned `Ok(())`),
`err` (an action failed and the `anyhow` error propagated via `?`), or
`panic` (the process crashed: the `bms[id as usize - 1]` index
underflowed / went out of bounds). -/
inductive BatchOutcome where
  | ok
  | err (msg : Str)
  | panic
deriving DecidableEq, Repr

/-- Rust `id as usize` for `id : i32` on a 64-bit target: sign extension
reinterpreted as an unsigned 64-bit value. -/
def i32AsUsize (id : Int) : Nat := (id % (2 : Int) ^ 64).toNat

/-- `do_sth_with_bms` (process.rs:223–250). For each ordinal `id` in order:
if `id as usize <= bms.len()` the bookmark `bms[id as usize - 1]` is fetched
and the action applied, `?`-propagating the first failure; otherwise the
ordinal is skipped silently. `id = 0` passes the guard and the index
`0usize - 1` underflows (a panic). Returns the list of bookmarks the action
was invoked on, in invocation order, together with the outcome. -/
def do_sth_with_bms (ids : List Int) (bms : List Bookmark)
    (do_sth : Bookmark → Except Str Unit) : List Bookmark × BatchOutcome :=
  match ids with
  | [] => ([], .ok)
  | id :: rest =>
    let u := i32AsUsize id
    if hle : u ≤ bms.length then
      if h0 : u = 0 then ([], .panic)
      else
        let bm := bms.get ⟨u - 1, by omega⟩
        match do_sth bm with
        | .error e => ([bm], .err e)
        | .ok _ =>
          let r := do_sth_with_bms rest bms do_sth
          (bm :: r.1, r.2)
    else do_sth_with_bms rest bms do_sth

/-- `delete_bms` (process.rs:205–221): reverses the ordinal list
(`ids.reverse()`), then dispatches the per-bookmark delete action through
`do_sth_with_bms`. The Store call (`Dal::delete_bookmark2`) is external; the
action is passed in as a parameter. -/
def delete_bms (ids : List Int) (bms : List Bookmark)
    (delete_bm : Bookmark → Except Str Unit) : List Bookmark × BatchOutcome :=
  do_sth_with_bms ids.reverse bms delete_bm

/-- Decimal rendering of an `i32`, as Rust `to_string`. -/
def intToStr (i : Int) : Str := (toString i).data

/-- The range `1..=n` as `i32` values (`(1..=bms.len() as i32).collect()`). -/
def rangeOneTo (n : Nat) : List Int := (List.range n).map (fun i => Int.ofNat i + 1)

/-- `print_ids` (process.rs:322–332): empty ordinal list means the full range
`1..=bms.len()`; the chosen list is printed space-joined. No Store access. -/
def print_ids (ids : List Int) (bms : List Bookmark) : Str :=
  let ids2 := if ids.length = 0 then rangeOneTo bms.length else ids
  joinSpace (ids2.map intToStr)

example :
    do_sth_with_bms [2, 1] [⟨1, [], [], [], [], 0, 0⟩, ⟨2, [], [], [], [], 0, 0⟩]
      (fun _ => .ok ()) =
    ([⟨2, [], [], [], [], 0, 0⟩, ⟨1, [], [], [], [], 0, 0⟩], .ok) := by decide

example : print_ids [] [⟨1, [], [], [], [], 0, 0⟩, ⟨2, [], [], [], [], 0, 0⟩]
    = "1 2".data := by decide

/-! ## The open action (`_open_bm`, process.rs:166–195) -/

/-- The designated shell-escape marker `"shell::"`. -/
def shellMarker : Str := "shell::".data

/-- What `_open_bm` hands to the outside world: either a command executed via
`sh -c` with inherited stdio (waited on), or a target handed to the
platform's default open mechanism (`open::that`). -/
inductive OpenEffect where
  | shellExec (cmd : Str)
  | sysOpen (target : Str)
deriving DecidableEq, Repr

/-- External collaborators of `_open_bm`.
`spawnExit cmd`: result of spawning `sh -c cmd` and waiting — `none` means
the spawn itself failed, `some code` the waited exit status.
`absPath`: `helper::abspath` (outside src/) — `some p` when the url denotes
an existing path, resolved to absolute form, `none` otherwise.
`sysOpen`: `open::that`. -/
structure OpenEnv where
  spawnExit : Str → Option Int
  absPath : Str → Option Str
  sysOpen : Str → Except Str Unit

/-- `_open_bm` (process.rs:166–195). If the url starts with `"shell::"`, the
command is `uri.replace("shell::", "")` (every occurrence removed), run via
`sh -c` and waited on; the exit status is only debug-logged, never turned
into an error. Otherwise the url, path-resolved by `abspath` when possible,
goes to the platform opener, whose error propagates via `?`. -/
def _open_bm (env : OpenEnv) (uri : Str) : OpenEffect × Except Str Unit :=
  if strStartsWith uri shellMarker then
    match env.spawnExit (replaceAll shellMarker [] uri) with
    | none => (.shellExec (replaceAll shellMarker [] uri), .error "Error opening".data)
    | some _status => (.shellExec (replaceAll shellMarker [] uri), .ok ())
  else
    match env.absPath uri with
    | some p => (.sysOpen p, env.sysOpen p)
    | none => (.sysOpen uri, env.sysOpen uri)

/-! ## The edit action (`do_edit`, process.rs:252–320) -/

/-- Each line of the edit template, without its terminating newline
(the `formatdoc!` literal at process.rs:257–267). -/
def tmplLines (bm : Bookmark) : List Str :=
  [("# Lines beginning with \"#\" will be stripped.").data,
   ("# Add URL in next line (single line).").data,
   bm.URL,
   ("# Add TITLE in next line (single line). Leave blank to web fetch, \"-\" for no title.").data,
   bm.metadata,
   ("# Add comma-separated TAGS in next line (single line).").data,
   bm.tags,
   ("# Add COMMENTS in next line(s). Leave blank to web fetch, \"-\" for no comments.").data,
   bm.desc]

/-- Join lines, terminating every line with `'\n'` (the template ends in a
trailing newline). -/
def unlines (ls : List Str) : Str := ls.foldr (fun l acc => l ++ '\n' :: acc) []

/-- The editable template materialized into the temp file. -/
def editTemplate (bm : Bookmark) : Str := unlines (tmplLines bm)

/-- `modified_content.split("\n").filter(|l| !l.starts_with("#"))`
(process.rs:297–300). -/
def nonCommentLines (content : Str) : List Str :=
  (splitCh '\n' content).filter (fun l => ! strStartsWith l ['#'])

/-- External collaborators of `do_edit`: the editor session (vim on the temp
file, modelled as a content transformation) and the Store's
`update_bookmark`. Temp-file IO is modelled as faithful (write then read
back returns the editor's output). -/
structure EditEnv where
  editor : Str → Str
  update_bookmark : Bookmark → Except Str Unit

/-- `do_edit` (process.rs:252–320): materialize the template, run the editor
synchronously, re-read the file, keep the non-comment lines, and build the
updated record from `lines[0..=3]` with the same `id` (the timestamp is
defaulted, to be overwritten by the Store). `none` models the panic when
fewer than 4 non-comment lines come back (`lines[k]` index out of bounds);
otherwise the record goes to `update_bookmark` and its result propagates. -/
def do_edit (env : EditEnv) (bm : Bookmark) : Option (Except Str Unit) :=
  match nonCommentLines (env.editor (editTemplate bm)) with
  | u :: t :: g :: d :: _ =>
    some (env.update_bookmark
      { id := bm.id, URL := u, metadata := t, tags := g, desc := d,
        flags := bm.flags, last_update_ts := 0 })
  | _ => none

example :
    nonCommentLines (editTemplate ⟨7, "u".data, "t".data, "a,b".data, "d".data, 0, 9⟩)
      = ["u".data, "t".data, "a,b".data, "d".data, []] := by decide

/-! ## Result-list sorting (main.rs:232–252)

Rust's `Vec::sort_by_key` is a stable sort; a stable sort producing an
ordering sorted under a total preorder is a unique function of its input, so
it is embedded as `List.mergeSort` (stable by `List.sublist_mergeSort`). -/

/-- Comparison used by `sort_by_key(|bm| bm.last_update_ts)`. -/
def tsLe (a b : Bookmark) : Bool := decide (a.last_update_ts ≤ b.last_update_ts)

/-- Lexicographic comparison of strings by scalar value — Rust `String`'s
`Ord` (byte-lexicographic on UTF-8, which coincides with scalar-value
lexicographic order). -/
def strLe : Str → Str → Bool
  | [], _ => true
  | _ :: _, [] => false
  | a :: xs, b :: ys => if a < b then true else if b < a then false else strLe xs ys

/-- Sort key of the default mode: `bm.metadata.to_lowercase()`. -/
def titleKey (bm : Bookmark) : Str := bm.metadata.map Char.toLower

/-- Comparison used by `sort_by_key(|bm| bm.metadata.to_lowercase())`. -/
def titleLe (a b : Bookmark) : Bool := strLe (titleKey a) (titleKey b)

/-- `order_asc` branch (main.rs:248): stable sort ascending by `last_update_ts`. -/
def sortAsc (bms : List Bookmark) : List Bookmark := bms.mergeSort tsLe

/-- `order_desc` branch (main.rs:239–240): stable ascending sort by
`last_update_ts`, then `Vec::reverse`. -/
def sortDesc (bms : List Bookmark) : List Bookmark := (bms.mergeSort tsLe).reverse

/-- Default branch (main.rs:251): stable sort ascending by lowercased title. -/
def sortByTitle (bms : List Bookmark) : List Bookmark := bms.mergeSort titleLe

theorem strLe_refl : ∀ s : Str, strLe s s = true := by
  intro s
  induction s with
  | nil => rfl
  | cons a xs ih => simp [strLe, ih]

theorem strLe_total : ∀ s t : Str, strLe s t || strLe t s := by
  intro s
  induction s with
  | nil => intro t; simp [strLe]
  | cons a xs ih =>
    intro t
    cases t with
    | nil => simp [strLe]
    | cons b ys =>
      by_cases hab : a < b
      · simp [strLe, hab]
      · by_cases hba : b < a
        · simp [strLe, hab, hba]
        · simp [strLe, hab, hba, ih ys]

theorem strLe_trans : ∀ s t u : Str, strLe s t → strLe t u → strLe s u := by
  intro s
  induction s with
  | nil => intro t u _ _; rfl
  | cons a xs ih =>
    intro t u hst htu
    cases t with
    | nil => simp [strLe] at hst
    | cons b ys =>
      cases u with
      | nil => simp [strLe] at htu
      | cons c zs =>
        simp only [strLe] at hst htu ⊢
        by_cases hab : a < b
        · by_cases hbc : b < c
          · simp [lt_trans hab hbc]
          · by_cases hcb : c < b
            · simp only [hbc, if_false, hcb, if_true] at htu
              exact absurd htu (by simp)
            · have hbc' : b = c := le_antisymm (not_lt.mp hcb) (not_lt.mp hbc)
              simp [hbc' ▸ hab]
        · by_cases hba : b < a
          · simp only [hab, if_false, hba, if_true] at hst
            exact absurd hst (by simp)
          · have hab' : a = b := le_antisymm (not_lt.mp hba) (not_lt.mp hab)
            subst hab'
            by_cases hac : a < c
            · simp [hac]
            · by_cases hca : c < a
              · simp only [hac, if_false, hca, if_true] at htu
                exact absurd htu (by simp)
              · simp only [hac, if_false, hca, if_true] at htu ⊢
                simp only [if_neg (lt_irrefl a)] at hst
                exact ih ys zs hst htu

/-- Stability of `mergeSort`, phrased on runs of equal keys: for a predicate
`p` under which any two satisfying elements compare `le`, the `p`-elements of
the sorted list are exactly the `p`-elements of the input, in input order. -/
theorem filter_mergeSort_of_le {α : Type} (le : α → α → Bool) (p : α → Bool)
    (trans : ∀ a b c, le a b → le b c → le a c)
    (total : ∀ a b, le a b || le b a)
    (hp : ∀ a b, p a → p b → le a b) (l : List α) :
    (l.mergeSort le).filter p = l.filter p := by
  have hpair : (l.filter p).Pairwise (fun a b => le a b) := by
    apply List.pairwise_of_forall_mem_list
    intro a ha b hb
    exact hp a b (List.of_mem_filter ha) (List.of_mem_filter hb)
  have hsub : List.Sublist (l.filter p) (l.mergeSort le) :=
    List.sublist_mergeSort trans total hpair (List.filter_sublist l)
  have hsub2 : List.Sublist (l.filter p) ((l.mergeSort le).filter p) := by
    have := hsub.filter p
    rwa [List.filter_filter, show (fun a => p a && p a) = p by funext a; cases p a <;> rfl]
      at this
  have hlen : ((l.mergeSort le).filter p).length = (l.filter p).length :=
    ((List.mergeSort_perm l le).filter p).length_eq
  exact (hsub2.eq_of_length hlen.symm).symm

/-! ## Tokenizer lemmas -/

theorem splitCh_ne_nil (sep : Char) (s : Str) : splitCh sep s ≠ [] := by
  induction s with
  | nil => simp [splitCh]
  | cons c rest ih =>
    simp only [splitCh]
    split
    · simp
    · split
      · simp
      · simp

/-- Every character of every fragment of `splitCh sep s` differs from `sep`
and comes from `s`. -/
theorem mem_splitCh (sep : Char) (s : Str) (t : Str) (ht : t ∈ splitCh sep s) :
    ∀ c ∈ t, c ≠ sep ∧ c ∈ s := by
  induction s generalizing t with
  | nil =>
    simp only [splitCh, List.mem_singleton] at ht
    subst ht; simp
  | cons a rest ih =>
    simp only [splitCh] at ht
    by_cases ha : a = sep
    · rw [if_pos ha] at ht
      rcases List.mem_cons.mp ht with h1 | h2
      · subst h1; simp
      · intro c hc
        obtain ⟨h3, h4⟩ := ih t h2 c hc
        exact ⟨h3, List.mem_cons_of_mem a h4⟩
    · rw [if_neg ha] at ht
      cases hsp : splitCh sep rest with
      | nil => exact absurd hsp (splitCh_ne_nil sep rest)
      | cons t0 ts =>
        rw [hsp] at ht
        rcases List.mem_cons.mp ht with h1 | h2
        · subst h1
          intro c hc
          rcases List.mem_cons.mp hc with rfl | hc2
          · exact ⟨ha, List.mem_cons_self _ _⟩
          · obtain ⟨h3, h4⟩ :=
              ih t0 (by rw [hsp]; exact List.mem_cons_self _ _) c hc2
            exact ⟨h3, List.mem_cons_of_mem a h4⟩
        · intro c hc
          obtain ⟨h3, h4⟩ :=
            ih t (by rw [hsp]; exact List.mem_cons_of_mem _ h2) c hc
          exact ⟨h3, List.mem_cons_of_mem a h4⟩

/-- `str::replace(x, "")` with a one-character pattern removes every
occurrence of that character (given enough fuel). -/
theorem not_mem_replaceAllFuel_single (x : Char) :
    ∀ (fuel : Nat) (s : Str), s.length ≤ fuel → x ∉ replaceAllFuel [x] [] fuel s := by
  intro fuel
  induction fuel with
  | zero =>
    intro s hs
    have hnil : s = [] := List.eq_nil_of_length_eq_zero (Nat.le_zero.mp hs)
    subst hnil; simp [replaceAllFuel]
  | succ fuel ih =>
    intro s hs
    match s with
    | [] => simp [replaceAllFuel]
    | c :: rest =>
      simp only [List.length_cons] at hs
      simp only [replaceAllFuel]
      by_cases hc : [x].isPrefixOf (c :: rest)
      · rw [if_pos ⟨by simp, hc⟩]
        simpa using ih rest (by omega)
      · rw [if_neg (by simp [hc])]
        have hcx : c ≠ x := by
          intro he; subst he
          exact hc (by simp [List.isPrefixOf])
        intro hmem
        rcases List.mem_cons.mp hmem with rfl | h2
        · exact hcx rfl
        · exact ih rest (by omega) h2

theorem toLower_not_upper (c : Char) : (Char.toLower c).isUpper = false := by
  unfold Char.toLower
  by_cases h : c.toNat ≥ 65 ∧ c.toNat ≤ 90
  · rw [if_pos h]
    obtain ⟨h1, h2⟩ := h
    generalize hg : c.toNat = n at h1 h2
    interval_cases n <;> decide
  · rw [if_neg h]
    simp only [Char.isUpper, Bool.and_eq_false_iff, decide_eq_false_iff_not]
    rcases Decidable.not_and_iff_or_not.mp h with h1 | h2
    · left
      intro hle
      rw [ge_iff_le, UInt32.le_def, BitVec.le_def] at hle
      exact h1 hle
    · right
      intro hle
      rw [UInt32.le_def, BitVec.le_def] at hle
      exact h2 hle

theorem toLower_comma (c : Char) (h : Char.toLower c = ',') : c = ',' := by
  unfold Char.toLower at h
  by_cases hr : c.toNat ≥ 65 ∧ c.toNat ≤ 90
  · rw [if_pos hr] at h
    obtain ⟨h1, h2⟩ := hr
    generalize hg : c.toNat = n at h1 h2 h
    interval_cases n <;> exact absurd h (by decide)
  · rwa [if_neg hr] at h

/-! ## Dispatch lemmas -/

theorem i32AsUsize_eq_toNat (i : Int) (h0 : 0 ≤ i) (hlt : i < 2 ^ 64) :
    i32AsUsize i = i.toNat := by
  unfold i32AsUsize
  rw [Int.emod_eq_of_lt h0 hlt]

/-- When every ordinal is in range `1..=N` and the action always succeeds,
the dispatcher acts on exactly the resolved bookmarks, in ordinal order. -/
theorem do_sth_with_bms_all_ok (bms : List Bookmark)
    (act : Bookmark → Except Str Unit) (hok : ∀ bm, act bm = .ok ())
    (hsz : bms.length < 2 ^ 31) :
    ∀ ids : List Int, (∀ i ∈ ids, 1 ≤ i ∧ i ≤ (bms.length : Int)) →
      do_sth_with_bms ids bms act
        = (ids.filterMap (fun i => bms.get? (i.toNat - 1)), .ok) := by
  intro ids
  induction ids with
  | nil => intro _; rfl
  | cons i rest ih =>
    intro hin
    obtain ⟨hi1, hiN⟩ := hin i (List.mem_cons_self i rest)
    have hsz' : (bms.length : Int) < 2 ^ 64 := by
      have : bms.length < 2 ^ 64 := lt_trans hsz (by norm_num)
      exact_mod_cast this
    have hu : i32AsUsize i = i.toNat :=
      i32AsUsize_eq_toNat i (by omega) (by omega)
    have huN : i.toNat ≤ bms.length := by omega
    have hu0 : ¬ i.toNat = 0 := by omega
    have hidx : i.toNat - 1 < bms.length := by omega
    simp only [do_sth_with_bms, hu]
    rw [dif_pos huN, dif_neg hu0]
    rw [hok (bms.get ⟨i.toNat - 1, by omega⟩)]
    rw [ih (fun j hj => hin j (List.mem_cons_of_mem i hj))]
    simp only [List.filterMap_cons, List.get?_eq_get hidx]

/-- **C1** (code defect): `do_sth_with_bms` silently skips an ordinal above
the result length (returning `Ok` without any error), panics on ordinal `0`
(the `id as usize - 1` underflow), and resolves ordinal `1` to the first
element of the result list — whereas the claim (spec §4.4) requires both
out-of-range ordinals to fail with an `OutOfRange` error. -/
theorem c1_out_of_range_skipped_or_panic (bms : List Bookmark)
    (act : Bookmark → Except Str Unit) (hne : bms ≠ [])
    (hsz : bms.length < 2 ^ 31) :
    do_sth_with_bms [(bms.length : Int) + 1] bms act = ([], .ok)
    ∧ do_sth_with_bms [0] bms act = ([], .panic)
    ∧ (do_sth_with_bms [1] bms act).1 = [bms.head hne] := by
  have hszI : (bms.length : Int) + 1 < 2 ^ 64 := by
    have h1 : (bms.length : Int) < 2 ^ 31 := by exact_mod_cast hsz
    have h2 : (2 : Int) ^ 31 + 1 ≤ 2 ^ 64 := by norm_num
    omega
  have hu1 : i32AsUsize ((bms.length : Int) + 1) = bms.length + 1 := by
    rw [i32AsUsize_eq_toNat _ (by omega) hszI]
    omega
  have hu0 : i32AsUsize 0 = 0 := by rw [i32AsUsize_eq_toNat 0 le_rfl (by norm_num)]; rfl
  have huu : i32AsUsize 1 = 1 := by rw [i32AsUsize_eq_toNat 1 (by omega) (by norm_num)]; rfl
  refine ⟨?_, ?_, ?_⟩
  · simp only [do_sth_with_bms, hu1]
    rw [dif_neg (by omega)]
  · simp only [do_sth_with_bms, hu0]
    simp
  · cases bms with
    | nil => exact absurd rfl hne
    | cons b rest =>
      simp only [do_sth_with_bms, huu]
      rw [dif_pos (by simp), dif_neg (by omega)]
      simp only [List.get, List.head_cons]
      cases hact : act b with
      | error e => simp [hact]
      | ok u => simp [hact]

/-- Witness for C1 at a concrete one-element result list. -/
theorem c1_witness :
    do_sth_with_bms [2] [⟨9, [], [], [], [], 0, 0⟩] (fun _ => .ok ()) = ([], .ok)
    ∧ do_sth_with_bms [0] [⟨9, [], [], [], [], 0, 0⟩] (fun _ => .ok ()) = ([], .panic)
    ∧ (do_sth_with_bms [1] [⟨9, [], [], [], [], 0, 0⟩] (fun _ => .ok ())).1
        = [⟨9, [], [], [], [], 0, 0⟩] := by
  have h := c1_out_of_range_skipped_or_panic
    [⟨9, [], [], [], [], 0, 0⟩] (fun _ => .ok ()) (by simp) (by norm_num)
  simpa using h

/-- A bookmark with the given `id` and empty text fields. -/
def bmI (n : Int) : Bookmark := ⟨n, [], [], [], [], 0, 0⟩

/-- **C2** (counterexample): ordinals `[1, 2, 3]` over a result list whose
bookmark ids are, in that order, `3, 7, 1` — so the ordinals resolve to the
id list `{3, 7, 1}` in input order. The claim requires processing in
descending numeric id order `7, 3, 1`; `delete_bms` instead processes the
ids `1, 7, 3` (reversal of ordinal input order). -/
theorem c2_counterexample :
    ((delete_bms [1, 2, 3] [bmI 3, bmI 7, bmI 1] (fun _ => .ok ())).1.map Bookmark.id
      = [1, 7, 3])
    ∧ ([(1 : Int), 7, 3] ≠ [7, 3, 1]) := by decide

/-- **C2** (amended): `delete_bms` reverses the *ordinal input order* before
resolving; for in-range ordinals and a succeeding delete action, the
bookmarks are processed in the exact reverse of ordinal input order (not in
descending numeric id order). -/
theorem c2_amended_delete_processes_in_reverse_input_order
    (bms : List Bookmark) (act : Bookmark → Except Str Unit)
    (hok : ∀ bm, act bm = .ok ()) (hsz : bms.length < 2 ^ 31)
    (ids : List Int) (hin : ∀ i ∈ ids, 1 ≤ i ∧ i ≤ (bms.length : Int)) :
    delete_bms ids bms act
      = ((ids.filterMap (fun i => bms.get? (i.toNat - 1))).reverse, .ok) := by
  unfold delete_bms
  rw [do_sth_with_bms_all_ok bms act hok hsz ids.reverse
    (fun i hi => hin i (List.mem_reverse.mp hi))]
  rw [List.filterMap_reverse]

/-- Witness for the amended C2: ordinals `[1, 2]` on a two-element list are
processed as positions 2 then 1. -/
theorem c2_amended_witness :
    delete_bms [1, 2] [bmI 4, bmI 8] (fun _ => .ok ()) = ([bmI 8, bmI 4], .ok) := by
  have h := c2_amended_delete_processes_in_reverse_input_order
    [bmI 4, bmI 8] (fun _ => .ok ()) (fun _ => rfl) (by norm_num)
    [1, 2] (by decide)
  simpa using h

/-- **C3** (confirmed): the first action failure aborts the batch — if the
dispatch of a prefix of the ordinal list ends in an action error, appending
further ordinals changes nothing: no later ordinal is attempted (the set of
acted-on bookmarks is unchanged, so prior actions stand un-rolled-back) and
the same failure is reported. -/
theorem c3_first_failure_aborts (xs ys : List Int) (bms : List Bookmark)
    (act : Bookmark → Except Str Unit) (tr : List Bookmark) (e : Str)
    (h : do_sth_with_bms xs bms act = (tr, .err e)) :
    do_sth_with_bms (xs ++ ys) bms act = (tr, .err e) := by
  induction xs generalizing tr with
  | nil => exact absurd (congrArg Prod.snd h) (by simp [do_sth_with_bms])
  | cons x xs ih =>
    rw [List.cons_append]
    by_cases hle : i32AsUsize x ≤ bms.length
    · by_cases h0 : i32AsUsize x = 0
      · simp only [do_sth_with_bms, dif_pos hle, dif_pos h0] at h
        exact absurd (congrArg Prod.snd h) (by simp)
      · simp only [do_sth_with_bms, dif_pos hle, dif_neg h0] at h ⊢
        cases hact : act (bms.get ⟨i32AsUsize x - 1, by omega⟩) with
        | error e2 =>
          simp only [hact] at h ⊢
          exact h
        | ok u =>
          simp only [hact] at h ⊢
          have h2 : (do_sth_with_bms xs bms act).2 = .err e :=
            congrArg Prod.snd h
          have h1 : do_sth_with_bms xs bms act
              = ((do_sth_with_bms xs bms act).1, .err e) := by
            rw [← h2]
          rw [ih _ h1]
          have h3 := congrArg Prod.fst h
          simp only at h3
          rw [← h3]
    · simp only [do_sth_with_bms, dif_neg hle] at h ⊢
      exact ih tr h

/-- Witness for C3: over ids `1, 2, 3` with the action failing on the
bookmark with id `2`, only the first two bookmarks are acted on, the failure
on id `2` is reported, and id `3` is never attempted. -/
theorem c3_witness :
    do_sth_with_bms ([1, 2] ++ [3]) [bmI 1, bmI 2, bmI 3]
      (fun bm => if bm.id = 2 then .error "boom".data else .ok ())
      = ([bmI 1, bmI 2], .err "boom".data) :=
  c3_first_failure_aborts [1, 2] [3] [bmI 1, bmI 2, bmI 3]
    (fun bm => if bm.id = 2 then .error "boom".data else .ok ())
    [bmI 1, bmI 2] "boom".data (by decide)

theorem joinSpace_ne_nil (x : Str) (xs : List Str) (hx : x ≠ []) :
    joinSpace (x :: xs) ≠ [] := by
  cases xs with
  | nil => simpa [joinSpace]
  | cons y ys => simp [joinSpace, hx]

/-- **C9** (confirmed): `print_ids` emits the given ordinal list — or, when
it is empty, the full range `1..=N` — space-joined. The model takes no Store
handle: the action reads only the ordinal list and the result list length. -/
theorem c9_print_space_joined (ids : List Int) (bms : List Bookmark) :
    (ids = [] → print_ids ids bms
      = joinSpace ((rangeOneTo bms.length).map intToStr))
    ∧ (ids ≠ [] → print_ids ids bms = joinSpace (ids.map intToStr)) := by
  constructor
  · intro h; subst h; rfl
  · intro h
    simp only [print_ids]
    rw [if_neg (by simpa using h)]

/-- Witness for C9: empty ordinal list prints `1 2`; ordinals `2 5` print
`2 5`. -/
theorem c9_witness :
    print_ids [] [bmI 5, bmI 6] = "1 2".data
    ∧ print_ids [2, 5] [bmI 5, bmI 6] = "2 5".data := by
  have h1 := (c9_print_space_joined [] [bmI 5, bmI 6]).1 rfl
  have h2 := (c9_print_space_joined [2, 5] [bmI 5, bmI 6]).2 (by decide)
  constructor
  · rw [h1]; decide
  · rw [h2]; decide

/-- **C10** (confirmed): dispatching with an empty ordinal list acts on no
bookmark at all and succeeds — both through `do_sth_with_bms` (open/edit)
and through `delete_bms` — while `print_ids` with an empty ordinal list
prints the whole range (non-empty output on a non-empty result list). -/
theorem c10_empty_ordinals_no_action (bms : List Bookmark)
    (act : Bookmark → Except Str Unit) :
    do_sth_with_bms [] bms act = ([], .ok)
    ∧ delete_bms [] bms act = ([], .ok)
    ∧ (bms ≠ [] → print_ids [] bms ≠ []) := by
  refine ⟨rfl, rfl, ?_⟩
  intro hne
  cases bms with
  | nil => exact absurd rfl hne
  | cons b rest =>
    show joinSpace ((rangeOneTo (b :: rest).length).map intToStr) ≠ []
    rw [List.length_cons, rangeOneTo, List.range_succ_eq_map, List.map_cons,
      List.map_cons]
    exact joinSpace_ne_nil _ _ (by decide)

/-- Witness for C10 at a concrete non-empty result list. -/
theorem c10_witness :
    do_sth_with_bms [] [bmI 3] (fun _ => .ok ()) = ([], .ok)
    ∧ delete_bms [] [bmI 3] (fun _ => .ok ()) = ([], .ok)
    ∧ print_ids [] [bmI 3] ≠ [] := by
  have h := c10_empty_ordinals_no_action [bmI 3] (fun _ => .ok ())
  exact ⟨h.1, h.2.1, h.2.2 (by simp)⟩

/-! ## `str::replace` lemmas for the open action -/

theorem replaceAllFuel_nil (pat rep : Str) (f : Nat) :
    replaceAllFuel pat rep f [] = [] := by
  cases f <;> rfl

/-- The fuel is irrelevant as long as it covers the string length. -/
theorem replaceAllFuel_fuel_irrel (pat rep : Str) :
    ∀ (f1 : Nat) (s : Str) (f2 : Nat), s.length ≤ f1 → s.length ≤ f2 →
      replaceAllFuel pat rep f1 s = replaceAllFuel pat rep f2 s := by
  intro f1
  induction f1 with
  | zero =>
    intro s f2 h1 _
    have hnil : s = [] := List.eq_nil_of_length_eq_zero (Nat.le_zero.mp h1)
    subst hnil
    rw [replaceAllFuel_nil, replaceAllFuel_nil]
  | succ f ih =>
    intro s f2 h1 h2
    cases s with
    | nil => rw [replaceAllFuel_nil, replaceAllFuel_nil]
    | cons c rest =>
      simp only [List.length_cons] at h1 h2
      cases f2 with
      | zero => omega
      | succ g =>
        simp only [replaceAllFuel]
        by_cases hc : pat ≠ [] ∧ pat.isPrefixOf (c :: rest)
        · rw [if_pos hc, if_pos hc]
          have hlp : 1 ≤ pat.length := by
            cases hpat : pat with
            | nil => exact absurd hpat hc.1
            | cons p ps => simp
          have hlen : ((c :: rest).drop pat.length).length ≤ f := by
            simp only [List.length_drop, List.length_cons]
            omega
          have hlen2 : ((c :: rest).drop pat.length).length ≤ g := by
            simp only [List.length_drop, List.length_cons]
            omega
          rw [ih _ g hlen hlen2]
        · rw [if_neg hc, if_neg hc]
          rw [ih rest g (by omega) (by omega)]

/-- Removing a leading occurrence: `replace` on `pat ++ t` replaces the
leading occurrence and continues on `t`. -/
theorem replaceAll_pat_append (pat rep t : Str) (hp : pat ≠ []) :
    replaceAll pat rep (pat ++ t) = rep ++ replaceAll pat rep t := by
  cases hpat : pat with
  | nil => exact absurd hpat hp
  | cons p ps =>
    have hpre : (p :: ps).isPrefixOf ((p :: ps) ++ t) = true :=
      List.isPrefixOf_iff_prefix.mpr ⟨t, rfl⟩
    have hdrop : ((p :: ps) ++ t).drop (p :: ps).length = t := List.drop_left (p :: ps) t
    simp only [List.cons_append] at hdrop
    show replaceAllFuel (p :: ps) rep ((ps ++ t).length + 1) (p :: (ps ++ t))
      = rep ++ replaceAllFuel (p :: ps) rep t.length t
    rw [replaceAllFuel, if_pos ⟨List.cons_ne_nil p ps, hpre⟩, hdrop]
    congr 1
    exact replaceAllFuel_fuel_irrel (p :: ps) rep ((ps ++ t).length) t t.length
      (by simp) le_rfl

/-- If the pattern's first character does not occur in the string, `replace`
leaves the string unchanged. -/
theorem replaceAll_of_head_not_mem (p : Char) (ps rep : Str) :
    ∀ (f : Nat) (t : Str), p ∉ t → replaceAllFuel (p :: ps) rep f t = t := by
  intro f
  induction f with
  | zero => intro t _; rfl
  | succ f ih =>
    intro t hmem
    cases t with
    | nil => rfl
    | cons c rest =>
      rw [replaceAllFuel, if_neg, ih rest (fun h => hmem (List.mem_cons_of_mem c h))]
      rintro ⟨-, hpre⟩
      rw [List.isPrefixOf_cons₂, Bool.and_eq_true] at hpre
      have hpc : p = c := by simpa using hpre.1
      exact hmem (hpc ▸ List.mem_cons_self c rest)

/-- An open environment whose shell spawn succeeds with exit status 1. -/
def envExit1 : OpenEnv := ⟨fun _ => some 1, fun _ => none, fun _ => .ok ()⟩

/-- **C6** (counterexample): the waited shell command exits with nonzero
status 1, yet `_open_bm` returns `Ok` — no ExternalProcessFailure error is
surfaced; the exit status is only debug-logged. -/
theorem c6_counterexample :
    envExit1.spawnExit (replaceAll shellMarker [] ("shell::false".data)) = some 1
    ∧ (_open_bm envExit1 ("shell::false".data)).2 = .ok ()
    ∧ (∀ e : Str, (_open_bm envExit1 ("shell::false".data)).2 ≠ .error e) := by
  refine ⟨rfl, rfl, ?_⟩
  intro e h
  rw [show (_open_bm envExit1 ("shell::false".data)).2 = .ok () from rfl] at h
  exact Except.noConfusion h

/-- **C6** (amended): for a shell-escape url, `_open_bm` errors exactly when
the spawn itself fails; whenever the spawn succeeds the result is `Ok`
regardless of the waited command's exit status (zero or not). -/
theorem c6_amended_exit_status_ignored (env : OpenEnv) (uri : Str)
    (h : strStartsWith uri shellMarker = true) :
    ((_open_bm env uri).2 = .ok ()
      ↔ env.spawnExit (replaceAll shellMarker [] uri) ≠ none)
    ∧ (∀ code : Int, env.spawnExit (replaceAll shellMarker [] uri) = some code →
        (_open_bm env uri).2 = .ok ()) := by
  unfold _open_bm
  rw [if_pos h]
  cases hsp : env.spawnExit (replaceAll shellMarker [] uri) with
  | none =>
    refine ⟨⟨fun hok => absurd hok (by simp), fun hne => absurd rfl hne⟩, ?_⟩
    intro code hcode
    exact Option.noConfusion hcode
  | some code =>
    exact ⟨by simp, fun _ _ => rfl⟩

/-- Witness for the amended C6 at a concrete environment and url. -/
theorem c6_amended_witness :
    ((_open_bm envExit1 ("shell::x".data)).2 = .ok ()
      ↔ envExit1.spawnExit (replaceAll shellMarker [] ("shell::x".data)) ≠ none)
    ∧ (∀ code : Int,
        envExit1.spawnExit (replaceAll shellMarker [] ("shell::x".data)) = some code →
        (_open_bm envExit1 ("shell::x".data)).2 = .ok ()) :=
  c6_amended_exit_status_ignored envExit1 ("shell::x".data) (by decide)

/-- An open environment whose shell spawn succeeds with exit status 0 and
which resolves no path. -/
def envOpen0 : OpenEnv := ⟨fun _ => some 0, fun _ => none, fun _ => .ok ()⟩

/-- **C7** (counterexample): for the url `shell::shell::ls`, the remainder
after the leading `shell::` marker is `shell::ls`, but the command actually
executed is `ls` — `replace` removes *every* occurrence of the marker, not
just the leading one. -/
theorem c7_counterexample :
    ("shell::shell::ls".data : Str) = shellMarker ++ ("shell::ls".data)
    ∧ (_open_bm envOpen0 ("shell::shell::ls".data)).1 = .shellExec ("ls".data)
    ∧ (("ls".data : Str) ≠ ("shell::ls".data)) := by
  refine ⟨by decide, rfl, by decide⟩

/-- **C7** (amended): a url starting with the shell marker executes, via the
waited shell path, the url with every occurrence of the marker removed —
which equals the remainder after the leading marker whenever the marker does
not recur in it (guaranteed e.g. when the remainder contains no `s`). Any
other url is handed to the platform opener, resolved to an absolute path
when `abspath` succeeds and verbatim otherwise. -/
theorem c7_amended_dispatch :
    (∀ (env : OpenEnv) (uri : Str), strStartsWith uri shellMarker = true →
      (_open_bm env uri).1 = .shellExec (replaceAll shellMarker [] uri))
    ∧ (∀ (env : OpenEnv) (t : Str), 's' ∉ t →
      (_open_bm env (shellMarker ++ t)).1 = .shellExec t)
    ∧ (∀ (env : OpenEnv) (uri : Str), strStartsWith uri shellMarker = false →
      (_open_bm env uri).1 = match env.absPath uri with
        | some p => .sysOpen p
        | none => .sysOpen uri) := by
  refine ⟨?_, ?_, ?_⟩
  · intro env uri h
    unfold _open_bm
    rw [if_pos h]
    cases env.spawnExit (replaceAll shellMarker [] uri) <;> rfl
  · intro env t hs
    have hstart : strStartsWith (shellMarker ++ t) shellMarker = true :=
      List.isPrefixOf_iff_prefix.mpr ⟨t, rfl⟩
    have hcmd : replaceAll shellMarker [] (shellMarker ++ t) = t := by
      rw [replaceAll_pat_append shellMarker [] t (by decide), List.nil_append]
      show replaceAllFuel shellMarker [] t.length t = t
      rw [show shellMarker = 's' :: ("hell::".data) from by decide]
      exact replaceAll_of_head_not_mem 's' ("hell::".data) [] t.length t hs
    unfold _open_bm
    rw [if_pos hstart, hcmd]
    cases env.spawnExit t <;> rfl
  · intro env uri h
    unfold _open_bm
    rw [if_neg (by simp [h])]
    cases env.absPath uri <;> rfl

/-- Witness for the amended C7: a shell url is executed with the marker
stripped; a plain url goes to the platform opener verbatim. -/
theorem c7_witness :
    (_open_bm envOpen0 ("shell::echo hi".data)).1 = .shellExec ("echo hi".data)
    ∧ (_open_bm envOpen0 ("relative.txt".data)).1 = .sysOpen ("relative.txt".data) := by
  constructor
  · have h := c7_amended_dispatch.2.1 envOpen0 ("echo hi".data) (by decide)
    have e : shellMarker ++ ("echo hi".data) = ("shell::echo hi".data : Str) := by decide
    rwa [e] at h
  · have h := c7_amended_dispatch.2.2 envOpen0 ("relative.txt".data) (by decide)
    simpa using h

/-! ## Edit-template lemmas -/

theorem splitCh_append_cons (sep : Char) (xs ys : Str) (h : sep ∉ xs) :
    splitCh sep (xs ++ sep :: ys) = xs :: splitCh sep ys := by
  induction xs with
  | nil => simp [splitCh]
  | cons c xs ih =>
    have hc : c ≠ sep := fun he => h (he ▸ List.mem_cons_self c xs)
    have ih2 := ih (fun hm => h (List.mem_cons_of_mem c hm))
    show (if c = sep then [] :: splitCh sep (xs ++ sep :: ys)
      else match splitCh sep (xs ++ sep :: ys) with
        | [] => [[c]]
        | t :: ts => (c :: t) :: ts) = (c :: xs) :: splitCh sep ys
    rw [if_neg hc, ih2]

/-- Splitting newline-terminated lines recovers the lines, plus the final
empty fragment after the trailing newline. -/
theorem splitCh_unlines (ls : List Str) (h : ∀ l ∈ ls, '\n' ∉ l) :
    splitCh '\n' (unlines ls) = ls ++ [[]] := by
  induction ls with
  | nil => rfl
  | cons l ls ih =>
    show splitCh '\n' (l ++ '\n' :: unlines ls) = (l :: ls) ++ [[]]
    rw [splitCh_append_cons '\n' l (unlines ls) (h l (List.mem_cons_self l ls))]
    rw [ih (fun x hx => h x (List.mem_cons_of_mem l hx))]
    rfl

/-- Parsing the unedited template back: the four data fields reappear as the
non-comment lines (plus the empty fragment from the trailing newline),
provided no field embeds a newline or starts with the comment marker. -/
theorem nonCommentLines_editTemplate (bm : Bookmark)
    (hU : '\n' ∉ bm.URL) (hT : '\n' ∉ bm.metadata)
    (hG : '\n' ∉ bm.tags) (hD : '\n' ∉ bm.desc)
    (hU2 : strStartsWith bm.URL ['#'] = false)
    (hT2 : strStartsWith bm.metadata ['#'] = false)
    (hG2 : strStartsWith bm.tags ['#'] = false)
    (hD2 : strStartsWith bm.desc ['#'] = false) :
    nonCommentLines (editTemplate bm)
      = [bm.URL, bm.metadata, bm.tags, bm.desc, []] := by
  unfold nonCommentLines editTemplate
  rw [splitCh_unlines (tmplLines bm) ?_]
  · simp only [tmplLines, List.cons_append, List.nil_append, List.filter_cons]
    rw [show (! strStartsWith ("# Lines beginning with \"#\" will be stripped.").data ['#'])
        = false from by decide]
    rw [show (! strStartsWith ("# Add URL in next line (single line).").data ['#'])
        = false from by decide]
    rw [show (! strStartsWith
          ("# Add TITLE in next line (single line). Leave blank to web fetch, \"-\" for no title.").data ['#'])
        = false from by decide]
    rw [show (! strStartsWith ("# Add comma-separated TAGS in next line (single line).").data ['#'])
        = false from by decide]
    rw [show (! strStartsWith
          ("# Add COMMENTS in next line(s). Leave blank to web fetch, \"-\" for no comments.").data ['#'])
        = false from by decide]
    rw [hU2, hT2, hG2, hD2]
    simp [List.filter_cons, show strStartsWith ([] : Str) ['#'] = false from rfl]
  · intro l hl
    simp only [tmplLines, List.mem_cons, List.not_mem_nil, or_false] at hl
    rcases hl with rfl | rfl | rfl | rfl | rfl | rfl | rfl | rfl | rfl
    · decide
    · decide
    · exact hU
    · decide
    · exact hT
    · decide
    · exact hG
    · decide
    · exact hD

/-- **C4** (amended): the edit action materializes the 4-field template with
comment lines (parsing the unedited template yields exactly the four fields
back), rebuilds the record from the first four non-comment lines of the
editor output with the same `id` and hands it to the Store's update — but
editor output with fewer than 4 non-comment lines causes an out-of-bounds
index panic (`lines[k]`), not a reported error. -/
theorem c4_amended_edit_roundtrip :
    (∀ (env : EditEnv) (bm : Bookmark) (u t g d : Str) (rest : List Str),
      nonCommentLines (env.editor (editTemplate bm)) = u :: t :: g :: d :: rest →
      do_edit env bm = some (env.update_bookmark
        ⟨bm.id, u, t, g, d, bm.flags, 0⟩))
    ∧ (∀ (env : EditEnv) (bm : Bookmark), env.editor = id →
      '\n' ∉ bm.URL → '\n' ∉ bm.metadata → '\n' ∉ bm.tags → '\n' ∉ bm.desc →
      strStartsWith bm.URL ['#'] = false → strStartsWith bm.metadata ['#'] = false →
      strStartsWith bm.tags ['#'] = false → strStartsWith bm.desc ['#'] = false →
      do_edit env bm = some (env.update_bookmark
        ⟨bm.id, bm.URL, bm.metadata, bm.tags, bm.desc, bm.flags, 0⟩))
    ∧ (∀ (env : EditEnv) (bm : Bookmark),
      (nonCommentLines (env.editor (editTemplate bm))).length < 4 →
      do_edit env bm = none) := by
  refine ⟨?_, ?_, ?_⟩
  · intro env bm u t g d rest h
    unfold do_edit
    rw [h]
  · intro env bm hid hU hT hG hD hU2 hT2 hG2 hD2
    unfold do_edit
    rw [hid, id_eq, nonCommentLines_editTemplate bm hU hT hG hD hU2 hT2 hG2 hD2]
  · intro env bm hlen
    unfold do_edit
    cases h0 : nonCommentLines (env.editor (editTemplate bm)) with
    | nil => rfl
    | cons u l1 =>
      cases l1 with
      | nil => rfl
      | cons t l2 =>
        cases l2 with
        | nil => rfl
        | cons g l3 =>
          cases l3 with
          | nil => rfl
          | cons d l4 =>
            rw [h0] at hlen
            simp at hlen
            omega

/-- Witness for the amended C4: identity editor round-trips a concrete
bookmark into an update with identical fields and the same id; an editor
that empties the file causes the panic outcome. -/
theorem c4_witness :
    do_edit ⟨id, fun _ => .ok ()⟩ ⟨7, "u".data, "t".data, "a,b".data, "d".data, 2, 9⟩
      = some (Except.ok ())
    ∧ do_edit ⟨fun _ => [], fun _ => .ok ()⟩ ⟨7, "u".data, "t".data, "a,b".data, "d".data, 2, 9⟩
      = none := by
  constructor
  · have h := c4_amended_edit_roundtrip.2.1 ⟨id, fun _ => .ok ()⟩
      ⟨7, "u".data, "t".data, "a,b".data, "d".data, 2, 9⟩ rfl
      (by decide) (by decide) (by decide) (by decide)
      (by decide) (by decide) (by decide) (by decide)
    rw [h]
  · have h := c4_amended_edit_roundtrip.2.2 ⟨fun _ => [], fun _ => .ok ()⟩
      ⟨7, "u".data, "t".data, "a,b".data, "d".data, 2, 9⟩ (by decide)
    rw [h]

/-- An edit environment whose editor session leaves the file empty. -/
def envEmptyEdit : EditEnv := ⟨fun _ => [], fun _ => .ok ()⟩

/-- **C4** (counterexample): an editor session that empties the temp file
leaves one non-comment line (the single empty fragment), fewer than 4; the
claim requires a reported parse error for that record, but `do_edit` panics
(`lines[1]` index out of bounds) — modelled as `none`, which is no
`some (Except.error _)` reported-error outcome. -/
theorem c4_counterexample :
    do_edit envEmptyEdit (bmI 1) = none
    ∧ (∀ e : Str, do_edit envEmptyEdit (bmI 1) ≠ some (.error e)) := by
  refine ⟨rfl, ?_⟩
  intro e h
  rw [show do_edit envEmptyEdit (bmI 1) = none from rfl] at h
  exact Option.noConfusion h

/-- A bookmark with the given `id` and `last_update_ts`. -/
def bmT (n ts : Int) : Bookmark := ⟨n, [], [], [], [], 0, ts⟩

/-- **C5** (counterexample): two bookmarks with equal `last_update_ts` in
Store order `[bmT 1 5, bmT 2 5]`. The claim requires every mode to keep
ties in the original order; the descending-by-time mode (stable ascending
sort followed by `reverse()`) emits them reversed. -/
theorem c5_counterexample :
    (bmT 1 5).last_update_ts = (bmT 2 5).last_update_ts
    ∧ sortDesc [bmT 1 5, bmT 2 5] = [bmT 2 5, bmT 1 5]
    ∧ sortDesc [bmT 1 5, bmT 2 5] ≠ [bmT 1 5, bmT 2 5] := by
  have hs : List.mergeSort [bmT 1 5, bmT 2 5] tsLe = [bmT 1 5, bmT 2 5] :=
    List.mergeSort_of_sorted (by decide)
  refine ⟨rfl, ?_, ?_⟩
  · unfold sortDesc
    rw [hs]
    rfl
  · unfold sortDesc
    rw [hs]
    decide

/-- **C5** (amended): the ascending-by-time and title modes are stable —
bookmarks with equal sort key appear in the exact original Store order (the
equal-key runs of the output coincide with those of the input) — sorting is
deterministic, and descending-by-time is always the exact reverse of
ascending-by-time (in particular when all timestamps are distinct); but the
descending mode, being a reversal, emits equal-time ties in reversed
original order. -/
theorem c5_amended_sort_stability :
    (∀ (l : List Bookmark) (k : Int),
      (sortAsc l).filter (fun b => decide (b.last_update_ts = k))
        = l.filter (fun b => decide (b.last_update_ts = k)))
    ∧ (∀ (l : List Bookmark) (kt : Str),
      (sortByTitle l).filter (fun b => decide (titleKey b = kt))
        = l.filter (fun b => decide (titleKey b = kt)))
    ∧ (∀ l : List Bookmark, sortDesc l = (sortAsc l).reverse) := by
  refine ⟨?_, ?_, fun l => rfl⟩
  · intro l k
    apply filter_mergeSort_of_le tsLe _
    · intro a b c hab hbc
      simp only [tsLe, decide_eq_true_eq] at hab hbc ⊢
      omega
    · intro a b
      simp only [tsLe]
      rcases Int.le_total a.last_update_ts b.last_update_ts with h | h
      · simp [h]
      · simp [h]
    · intro a b ha hb
      simp only [decide_eq_true_eq] at ha hb
      simp only [tsLe, decide_eq_true_eq]
      omega
  · intro l kt
    apply filter_mergeSort_of_le titleLe _
    · intro a b c hab hbc
      exact strLe_trans _ _ _ hab hbc
    · intro a b
      exact strLe_total _ _
    · intro a b ha hb
      simp only [decide_eq_true_eq] at ha hb
      unfold titleLe
      rw [ha, hb]
      exact strLe_refl kt

/-! ## The tokenizer claim -/

/-- **C8** (counterexample): the input `p\t1` (tab-separated). `parse` splits
on the space character only, so the whole input survives as one token that
still contains the tab — a whitespace character — and the result is not the
two tokens whitespace-splitting would give. -/
theorem c8_counterexample :
    parse ("p\t1".data) = [['p', '\t', '1']]
    ∧ ('\t' ∈ (['p', '\t', '1'] : Str) ∧ ('\t').isWhitespace = true)
    ∧ parse ("p\t1".data) ≠ ["p".data, "1".data] := by decide

/-- **C8** (amended): every token produced by `parse` is non-empty and
contains no space character, no comma, and no uppercase letter — tokens may
however retain non-space whitespace (such as tabs), since the split is on
the space character only. -/
theorem c8_amended_tokens (input : Str) (t : Str) (ht : t ∈ parse input) :
    t ≠ [] ∧ ∀ c ∈ t, c ≠ ' ' ∧ c ≠ ',' ∧ c.isUpper = false := by
  unfold parse at ht
  have ht2 := List.mem_filter.mp ht
  obtain ⟨ht3, ht4⟩ := ht2
  refine ⟨by simpa using ht4, ?_⟩
  intro c hc
  obtain ⟨hcs, hcb⟩ := mem_splitCh ' ' _ t ht3 c hc
  obtain ⟨c0, hc0, rfl⟩ := List.mem_map.mp hcb
  refine ⟨hcs, ?_, toLower_not_upper c0⟩
  intro hcomma
  have hc0c : c0 = ',' := toLower_comma c0 hcomma
  subst hc0c
  unfold replaceAll at hc0
  exact not_mem_replaceAllFuel_single ',' (rustTrim input).length (rustTrim input)
    le_rfl hc0

/-- Witness for the amended C8 on the input `A b`: the first token is the
lowercased `a`, non-empty, with no space, comma, or uppercase letter. -/
theorem c8_witness :
    ("a".data : Str) ≠ []
    ∧ ∀ c ∈ ("a".data : Str), c ≠ ' ' ∧ c ≠ ',' ∧ c.isUpper = false :=
  c8_amended_tokens ("A b".data) ("a".data) (by decide)

end Bkmr
